import Mathlib

set_option maxRecDepth 10000

/-!
Verification of the fee-calculation and schedule-derivation core of the
architect fee calculator (src/architect_fee_calculator_final.py).

The computational core is lines 40-85 of the source: the fixed role and
phase lists, the raw-labor sum, the workplan fee, the adjusted percentage
and percentage-of-cost fee, the consultant fee comprehension, and the
per-phase schedule rows with day durations.  Exact numeric values are
embedded over the rationals; a separate binary64 rounding model settles
the concrete floating-point scenario.
-/

namespace ArchFee

/-- Source line 40: the fixed role list. -/
def roles : List String := ["Principal", "Project Manager", "Architect", "Drafter"]

/-- Source lines 48-49: the fixed ordered phase list. -/
def phases : List String := ["Pre-Design", "Schematic Design", "Design Development",
  "Construction Documents", "Bidding/Negotiation", "Construction Administration"]

/-- Source line 82: `total_raw = sum(hours_data[p][r] * rates[r] for p in phases for r in roles)`,
parametric in the phase and role lists the generator ranges over. -/
def totalRaw (phs rls : List String) (hours : String → String → ℚ)
    (rates : String → ℚ) : ℚ :=
  ((phs.flatMap (fun p => rls.map (fun r => hours p r * rates r))).sum)

/-- Source line 83: `workplan_fee = total_raw * firm_multiplier`. -/
def workplanFee (totalRawLaborCost firmMultiplier : ℚ) : ℚ :=
  totalRawLaborCost * firmMultiplier

/-- Source line 84: `adjusted_pct = base_fee_percent * complexity_factor * location_factor * risk_factor`. -/
def adjustedPct (baseFeePercent complexityFactor locationFactor riskFactor : ℚ) : ℚ :=
  baseFeePercent * complexityFactor * locationFactor * riskFactor

/-- Source line 85: `percentage_fee = construction_cost * adjusted_pct`. -/
def percentageFee (constructionCost baseFeePercent complexityFactor locationFactor
    riskFactor : ℚ) : ℚ :=
  constructionCost * adjustedPct baseFeePercent complexityFactor locationFactor riskFactor

/-- Source line 65: `consultant_fees = {k: construction_cost * v / 100 for k, v in consultant_pct.items()}`.
Python dicts iterate in insertion order, so the mapping is modelled as an
ordered association list. -/
def consultantFees (constructionCost : ℚ) (consultantPct : List (String × ℚ)) :
    List (String × ℚ) :=
  consultantPct.map (fun kv => (kv.1, constructionCost * kv.2 / 100))

/-- Source lines 59-64: the default consultant percentage table. -/
def srcConsultantPct : List (String × ℚ) :=
  [("Structural Engineer", 3/2), ("MEP Engineer", 2),
   ("Civil Engineer", 1), ("Landscape Architect", 1/2)]

/-- A proleptic-Gregorian calendar date, as in Python `datetime.date`. -/
structure Date where
  year : ℕ
  month : ℕ
  day : ℕ
deriving DecidableEq, Repr

/-- Gregorian leap-year test, matching `datetime`'s `_is_leap`. -/
def isLeap (y : ℕ) : Bool :=
  (y % 4 == 0 && y % 100 != 0) || y % 400 == 0

/-- Days in the year strictly before month `m`, matching `datetime`'s
`_days_before_month`. -/
def daysBeforeMonth (y m : ℕ) : ℕ :=
  [0, 31, 59, 90, 120, 151, 181, 212, 243, 273, 304, 334].getD (m - 1) 0
    + (if 2 < m ∧ isLeap y then 1 else 0)

/-- Ordinal day number of a date, matching Python `date.toordinal`
(day 1 is 0001-01-01). -/
def toordinal (d : Date) : ℤ :=
  365 * ((d.year : ℤ) - 1) + (((d.year - 1) / 4 : ℕ) : ℤ)
    - (((d.year - 1) / 100 : ℕ) : ℤ) + (((d.year - 1) / 400 : ℕ) : ℤ)
    + (daysBeforeMonth d.year d.month : ℤ) + (d.day : ℤ)

/-- Python `(end - start).days` for two dates: the difference of their
ordinal day numbers. -/
def dateSubDays (e s : Date) : ℤ := toordinal e - toordinal s

/-- One row of the schedule table. -/
structure ScheduleRow where
  phase : String
  startDate : Date
  endDate : Date
  durationDays : ℤ
deriving DecidableEq, Repr

/-- Source line 76: the dict appended for one phase,
`{"Phase": p, "Start": start, "End": end, "Duration (days)": (end - start).days}`. -/
def mkScheduleRow (p : String) (s e : Date) : ScheduleRow :=
  ⟨p, s, e, dateSubDays e s⟩

/-- Source lines 71-76: the loop `for p in phases: ... schedule_rows.append(...)`,
modelled as a fold over the caller-supplied `(name, start, end)` triples that
appends one row per phase. -/
def scheduleRows (input : List (String × Date × Date)) : List ScheduleRow :=
  input.foldl (fun acc t => acc ++ [mkScheduleRow t.1 t.2.1 t.2.2]) []

end ArchFee

namespace ArchFee

/-- C2: the percentage-of-cost fee is the construction cost times the plain
product of the base fee percent and the three factors, with no clamping:
a product exceeding 1 passes through and yields a fee above the cost. -/
theorem percentageFee_is_plain_product :
    (∀ cost b c l rf : ℚ, percentageFee cost b c l rf = cost * (b * c * l * rf))
      ∧ 1 < adjustedPct 1 2 1 1
      ∧ percentageFee 100 1 2 1 1 = 200 := by
  refine ⟨fun cost b c l rf => ?_, by norm_num [adjustedPct], ?_⟩
  · unfold percentageFee adjustedPct; ring
  · norm_num [percentageFee, adjustedPct]

/-- C5: the workplan fee is the total raw labor cost times the firm
multiplier; holding labor cost fixed, scaling the multiplier by k scales
the fee by exactly k. -/
theorem workplanFee_linear_in_multiplier :
    ∀ raw m k : ℚ, workplanFee raw m = raw * m
      ∧ workplanFee raw (k * m) = k * workplanFee raw m := by
  intro raw m k
  constructor <;> (unfold workplanFee; ring)

/-- C9: zeroing any one of the base fee percent or the three factors zeroes
the percentage-of-cost fee, and setting all four to 1 returns the
construction cost itself. -/
theorem percentageFee_zero_and_unit :
    ∀ cost b c l rf : ℚ,
      percentageFee cost 0 c l rf = 0
      ∧ percentageFee cost b 0 l rf = 0
      ∧ percentageFee cost b c 0 rf = 0
      ∧ percentageFee cost b c l 0 = 0
      ∧ percentageFee cost 1 1 1 1 = cost := by
  intro cost b c l rf
  refine ⟨?_, ?_, ?_, ?_, ?_⟩ <;> (unfold percentageFee adjustedPct; ring)

/-- C10: the consultant fee breakdown has exactly the input's category keys,
in the same order: no category is added, dropped, or renamed. -/
theorem consultantFees_preserves_keys :
    ∀ (cost : ℚ) (pcts : List (String × ℚ)),
      (consultantFees cost pcts).map Prod.fst = pcts.map Prod.fst
        ∧ (consultantFees cost pcts).length = pcts.length := by
  intro cost pcts
  constructor
  · simp [consultantFees, List.map_map, Function.comp]
  · simp [consultantFees]

end ArchFee

namespace ArchFee

/-- Helper: folding append-of-one-element over a list from `acc` is `acc`
followed by the mapped list. -/
theorem foldl_append_singleton_eq_map {α β : Type} (f : α → β) :
    ∀ (l : List α) (acc : List β),
      l.foldl (fun a t => a ++ [f t]) acc = acc ++ l.map f := by
  intro l
  induction l with
  | nil => intro acc; simp
  | cons hd tl ih => intro acc; simp [List.foldl_cons, ih]

/-- C4: a schedule row's duration is the end date's ordinal minus the start
date's ordinal, in integer days, with no validation: 2024-01-01 to
2024-01-11 gives 10, equal dates give 0, and an inverted range passes the
corresponding negative integer through unchanged. -/
theorem scheduleRow_duration_days :
    (∀ (p : String) (s e : Date),
        (mkScheduleRow p s e).durationDays = toordinal e - toordinal s)
      ∧ (mkScheduleRow "Pre-Design" ⟨2024, 1, 1⟩ ⟨2024, 1, 11⟩).durationDays = 10
      ∧ (mkScheduleRow "Pre-Design" ⟨2024, 1, 1⟩ ⟨2024, 1, 1⟩).durationDays = 0
      ∧ (mkScheduleRow "Pre-Design" ⟨2024, 1, 11⟩ ⟨2024, 1, 1⟩).durationDays = -10
      ∧ (∀ (p : String) (s e : Date),
          (mkScheduleRow p s e).durationDays = -((mkScheduleRow p e s).durationDays)) := by
  refine ⟨fun p s e => rfl, by decide, by decide, by decide, fun p s e => ?_⟩
  simp [mkScheduleRow, dateSubDays]

/-- C7: the derived schedule has exactly one row per input phase, in the
caller-supplied order, and each row carries the input name, start date and
end date unchanged alongside the derived duration. -/
theorem scheduleRows_order_and_fields :
    ∀ (input : List (String × Date × Date)),
      scheduleRows input = input.map (fun t => mkScheduleRow t.1 t.2.1 t.2.2)
        ∧ (scheduleRows input).length = input.length
        ∧ (scheduleRows input).map
            (fun row => (row.phase, row.startDate, row.endDate)) = input := by
  intro input
  have h : scheduleRows input = input.map (fun t => mkScheduleRow t.1 t.2.1 t.2.2) := by
    simp [scheduleRows, foldl_append_singleton_eq_map]
  refine ⟨h, by simp [h], ?_⟩
  rw [h, List.map_map]
  have hid : ∀ t : String × Date × Date,
      ((fun row => (row.phase, row.startDate, row.endDate)) ∘
        fun t => mkScheduleRow t.1 t.2.1 t.2.2) t = t := by
    rintro ⟨a, b, c⟩; rfl
  calc input.map _ = input.map id := List.map_congr_left (fun t _ => hid t)
    _ = input := List.map_id input

end ArchFee

namespace ArchFee

/-- C1: the total raw labor cost is the sum over all (phase, role) pairs of
`hours[phase][role] * rates[role]`, with no rounding; on the concrete
scenario with a single phase worth 10 Principal hours at rate 200 it is
2000. -/
theorem totalRaw_eq_sum_over_pairs :
    (∀ (phs rls : List String) (hours : String → String → ℚ) (rates : String → ℚ),
        phs.Nodup → rls.Nodup →
        totalRaw phs rls hours rates
          = phs.toFinset.sum (fun p => rls.toFinset.sum (fun r => hours p r * rates r)))
      ∧ totalRaw ["Design"] ["Principal"] (fun _ _ => 10) (fun _ => 200) = 2000 := by
  constructor
  · intro phs rls hours rates hp hr
    unfold totalRaw
    rw [List.flatMap, List.sum_flatten, List.map_map, List.sum_toFinset _ hp]
    refine congrArg List.sum (List.map_congr_left ?_)
    intro p _
    simp only [Function.comp]
    exact (List.sum_toFinset _ hr).symm
  · simp [totalRaw]
    norm_num

/-- Witness for C1 at concrete nodup lists and constant mappings. -/
theorem totalRaw_eq_sum_over_pairs_witness :
    totalRaw ["Design"] ["Principal"] (fun _ _ => 10) (fun _ => 200)
      = (List.toFinset ["Design"]).sum
          (fun p => (List.toFinset ["Principal"]).sum
            (fun r => (fun _ _ => (10 : ℚ)) p r * (fun _ => (200 : ℚ)) r)) :=
  totalRaw_eq_sum_over_pairs.1 ["Design"] ["Principal"]
    (fun _ _ => 10) (fun _ => 200) (by decide) (by decide)

/-- C3: every consultant category in the rate mapping yields the fee
`cost * rate / 100` (rates in whole-number percent units), and a rate of
100 yields exactly the construction cost. -/
theorem consultantFees_per_category :
    ∀ (cost : ℚ) (pcts : List (String × ℚ)) (k : String) (v : ℚ),
      (k, v) ∈ pcts →
      (k, cost * v / 100) ∈ consultantFees cost pcts
        ∧ (v = 100 → cost * v / 100 = cost) := by
  intro cost pcts k v hkv
  constructor
  · have h := List.mem_map_of_mem (fun kv : String × ℚ => (kv.1, cost * kv.2 / 100)) hkv
    simpa [consultantFees] using h
  · intro hv
    subst hv
    field_simp

/-- Witness for C3 on the source's default consultant table. -/
theorem consultantFees_per_category_witness :
    ("Structural Engineer", (1000000 : ℚ) * (3 / 2) / 100)
        ∈ consultantFees 1000000 srcConsultantPct
      ∧ ((3 / 2 : ℚ) = 100 → (1000000 : ℚ) * (3 / 2) / 100 = 1000000) :=
  consultantFees_per_category 1000000 srcConsultantPct "Structural Engineer" (3 / 2)
    (by unfold srcConsultantPct; exact List.mem_cons_self _ _)

end ArchFee

namespace ArchFee

/-- Source lines 41-42: the default hourly-rate table
(Principal 200, Project Manager 150, Architect 100, Drafter 75). -/
def srcRates : String → ℚ := fun r =>
  if r = "Principal" then 200
  else if r = "Project Manager" then 150
  else if r = "Architect" then 100
  else if r = "Drafter" then 75
  else 0

/-- Source line 53: the default hours entry (value 10 for every phase and
role). -/
def defaultHours : String → String → ℚ := fun _ _ => 10

/-- The hours mapping with the single `(p0, r0)` entry increased by `d`;
all other entries are unchanged.  Used to state linearity of the labor sum
in one entry. -/
def updHours (hours : String → String → ℚ) (p0 r0 : String) (d : ℚ) :
    String → String → ℚ :=
  fun p r => if p = p0 ∧ r = r0 then hours p r + d else hours p r

/-- Helper: adding `δ a0` to `g` at a member `a0` of a nodup list shifts
the mapped sum by exactly `δ a0`. -/
theorem sum_map_update_nodup {α : Type} [DecidableEq α] (g δ : α → ℚ) (a0 : α) :
    ∀ l : List α, l.Nodup → a0 ∈ l →
      (l.map (fun a => if a = a0 then g a + δ a else g a)).sum
        = (l.map g).sum + δ a0 := by
  intro l
  induction l with
  | nil => intro _ h; cases h
  | cons b tl ih =>
    intro hnd hmem
    rcases List.nodup_cons.mp hnd with ⟨hb, htl⟩
    rcases List.mem_cons.mp hmem with hba | ha
    · subst hba
      have htail : ∀ a ∈ tl, (if a = a0 then g a + δ a else g a) = g a :=
        fun a hin => if_neg (fun hEq : a = a0 => hb (hEq ▸ hin))
      simp only [List.map_cons, List.sum_cons]
      rw [List.map_congr_left htail]
      simp only [if_true, eq_self_iff_true, if_pos]
      ring
    · have hbne : ¬b = a0 := fun hEq => hb (hEq ▸ ha)
      simp only [List.map_cons, List.sum_cons, if_neg hbne, ih htl ha]
      ring

/-- Helper: the flat generator sum of line 82 as a sum of per-phase sums. -/
theorem totalRaw_as_map_sum (phs rls : List String)
    (hours : String → String → ℚ) (rates : String → ℚ) :
    totalRaw phs rls hours rates
      = (phs.map (fun p => (rls.map (fun r => hours p r * rates r)).sum)).sum := by
  unfold totalRaw
  rw [List.flatMap, List.sum_flatten, List.map_map]
  rfl

/-- C8: for non-negative hours and rates the total raw labor cost is
non-negative, and it is linear in each single (phase, role) hours entry:
increasing that entry by `d` increases the total by exactly `d` times the
role's rate. -/
theorem totalRaw_nonneg_and_linear :
    ∀ (phs rls : List String) (hours : String → String → ℚ)
      (rates : String → ℚ) (p0 r0 : String) (d : ℚ),
      (∀ p r, 0 ≤ hours p r) → (∀ r, 0 ≤ rates r) →
      phs.Nodup → rls.Nodup → p0 ∈ phs → r0 ∈ rls →
      0 ≤ totalRaw phs rls hours rates
        ∧ totalRaw phs rls (updHours hours p0 r0 d) rates
            = totalRaw phs rls hours rates + d * rates r0 := by
  intro phs rls hours rates p0 r0 d hh hr hpn hrn hp0 hr0
  constructor
  · refine List.sum_nonneg ?_
    intro x hx
    rcases List.mem_flatMap.mp hx with ⟨p, _, hmap⟩
    rcases List.mem_map.mp hmap with ⟨r, _, rfl⟩
    exact mul_nonneg (hh p r) (hr r)
  · rw [totalRaw_as_map_sum, totalRaw_as_map_sum]
    have hpt : ∀ p ∈ phs,
        (rls.map (fun r => updHours hours p0 r0 d p r * rates r)).sum
          = if p = p0
            then (rls.map (fun r => hours p r * rates r)).sum + d * rates r0
            else (rls.map (fun r => hours p r * rates r)).sum := by
      intro p _
      by_cases hp : p = p0
      · subst hp
        rw [if_pos rfl]
        have hmap : rls.map (fun r => updHours hours p r0 d p r * rates r)
            = rls.map (fun r =>
                if r = r0 then hours p r * rates r + d * rates r
                else hours p r * rates r) := by
          refine List.map_congr_left ?_
          intro r _
          by_cases hrr : r = r0
          · subst hrr
            show (if p = p ∧ r = r then hours p r + d else hours p r) * rates r
                = if r = r then hours p r * rates r + d * rates r
                  else hours p r * rates r
            rw [if_pos ⟨rfl, rfl⟩, if_pos rfl]
            ring
          · show (if p = p ∧ r = r0 then hours p r + d else hours p r) * rates r
                = if r = r0 then hours p r * rates r + d * rates r
                  else hours p r * rates r
            rw [if_neg (fun hc => hrr hc.2), if_neg hrr]
        rw [hmap,
          sum_map_update_nodup (fun r => hours p r * rates r)
            (fun r => d * rates r) r0 rls hrn hr0]
      · rw [if_neg hp]
        refine congrArg List.sum (List.map_congr_left ?_)
        intro r _
        simp [updHours, hp]
    rw [List.map_congr_left hpt]
    exact sum_map_update_nodup
      (fun p => (rls.map (fun r => hours p r * rates r)).sum)
      (fun _ => d * rates r0) p0 phs hpn hp0

/-- Witness for C8 on the source's fixed phase and role lists, default
rates and default 10-hour entries, increasing the Pre-Design Principal
hours by 5. -/
theorem totalRaw_nonneg_and_linear_witness :
    0 ≤ totalRaw phases roles defaultHours srcRates
      ∧ totalRaw phases roles (updHours defaultHours "Pre-Design" "Principal" 5) srcRates
          = totalRaw phases roles defaultHours srcRates + 5 * srcRates "Principal" :=
  totalRaw_nonneg_and_linear phases roles defaultHours srcRates
    "Pre-Design" "Principal" 5
    (fun _ _ => by norm_num [defaultHours])
    (fun r => by unfold srcRates; split_ifs <;> norm_num)
    (by decide) (by decide) (by decide) (by decide)

end ArchFee

namespace ArchFee

/-- Scale the positive fraction `a / b` by powers of two (tracked in `e`)
until the quotient lies in `[2^52, 2^53)`; the represented value
`(a / b) * 2^e` is invariant.  Fuel-bounded structural recursion so the
kernel can evaluate it. -/
def fpScale : ℕ → ℕ → ℕ → ℤ → ℕ × ℕ × ℤ
  | 0, a, b, e => (a, b, e)
  | fuel + 1, a, b, e =>
    if a < 2 ^ 52 * b then fpScale fuel (2 * a) b (e - 1)
    else if 2 ^ 53 * b ≤ a then fpScale fuel a (2 * b) (e + 1)
    else (a, b, e)

/-- Round the positive fraction `a / b` to the nearest binary64 value
(round-to-nearest, ties-to-even), returned as `(mantissa, exponent)` with
the value `mantissa * 2 ^ exponent` and `mantissa ∈ [2^52, 2^53)`. -/
def fpRoundPos (a b : ℕ) : ℕ × ℤ :=
  let s := fpScale 400 a b 0
  let a2 := s.1
  let b2 := s.2.1
  let e := s.2.2
  let n0 := a2 / b2
  let r := a2 % b2
  let n := if 2 * r < b2 then n0
    else if b2 < 2 * r then n0 + 1
    else if n0 % 2 = 0 then n0 else n0 + 1
  if n = 2 ^ 53 then (2 ^ 52, e + 1) else (n, e)

/-- A non-negative binary64 value `mantissa * 2 ^ exp`; rounded results are
normalised, so equal values have equal representations. -/
structure FP where
  mantissa : ℕ
  exp : ℤ
deriving DecidableEq, Repr

/-- The binary64 value nearest to the non-negative fraction `a / b`, as
produced by parsing a decimal literal in the source. -/
def fpOfRatio (a b : ℕ) : FP :=
  if a = 0 then ⟨0, 0⟩
  else
    let p := fpRoundPos a b
    ⟨p.1, p.2⟩

/-- IEEE-754 binary64 multiplication of non-negative values: the exact
product rounded to nearest, ties to even. -/
def fmul (x y : FP) : FP :=
  if x.mantissa = 0 ∨ y.mantissa = 0 then ⟨0, 0⟩
  else
    let p := fpRoundPos (x.mantissa * y.mantissa) 1
    ⟨p.1, p.2 + x.exp + y.exp⟩

/-- The exact rational value of a non-negative binary64 datum. -/
def FP.toRat (x : FP) : ℚ :=
  (x.mantissa : ℚ) * (if 0 ≤ x.exp then 2 ^ x.exp.toNat else 1 / 2 ^ (-x.exp).toNat)

/-- The binary64 value of the source-default literal `0.08` (line 30). -/
def fpBaseFeePercent : FP := fpOfRatio 8 100

/-- The binary64 value of the source-default literal `1.10` (line 31). -/
def fpComplexityFactor : FP := fpOfRatio 11 10

/-- The binary64 value of the source-default literal `1.00` (line 32). -/
def fpLocationFactor : FP := fpOfRatio 1 1

/-- The binary64 value of the source-default literal `1.05` (line 33). -/
def fpRiskFactor : FP := fpOfRatio 105 100

/-- The binary64 value of the source-default literal `1_000_000.0` (line 28). -/
def fpConstructionCost : FP := fpOfRatio 1000000 1

/-- Source line 84 under binary64 arithmetic: the left-associated product
`base_fee_percent * complexity_factor * location_factor * risk_factor`. -/
def adjustedPctFP : FP :=
  fmul (fmul (fmul fpBaseFeePercent fpComplexityFactor) fpLocationFactor) fpRiskFactor

/-- Source line 85 under binary64 arithmetic:
`construction_cost * adjusted_pct`. -/
def percentageFeeFP : FP := fmul fpConstructionCost adjustedPctFP

end ArchFee

namespace ArchFee

/-- C6 (counterexample): under the program's binary64 floating-point
arithmetic, the computed adjusted percentage is not 0.0924 and the
computed percentage-of-cost fee is not 92,400. -/
theorem adjustedPctFP_misses_spec_values :
    FP.toRat adjustedPctFP ≠ 924 / 10000 ∧ FP.toRat percentageFeeFP ≠ 92400 := by
  have h1 : adjustedPctFP = ⟨6658121689104542, -56⟩ := by decide
  have h2 : percentageFeeFP = ⟨6349679650406401, -36⟩ := by decide
  constructor
  · rw [h1]; norm_num [FP.toRat, show Int.toNat 56 = 56 from rfl]
  · rw [h2]; norm_num [FP.toRat, show Int.toNat 36 = 36 from rfl]

/-- C6 (amended): under binary64 arithmetic the computed adjusted
percentage is the double one ulp above the literal 0.0924, with exact
value 3329060844552271/2^55 (displayed 0.09240000000000001), and the fee
is 6349679650406401/2^36 (displayed 92400.00000000001); the values 0.0924
and 92,400 hold exactly under exact rational arithmetic. -/
theorem adjustedPctFP_exact_values :
    adjustedPctFP = ⟨6658121689104542, -56⟩
      ∧ percentageFeeFP = ⟨6349679650406401, -36⟩
      ∧ fpOfRatio 924 10000 = ⟨6658121689104541, -56⟩
      ∧ FP.toRat adjustedPctFP = 3329060844552271 / 36028797018963968
      ∧ FP.toRat percentageFeeFP = 6349679650406401 / 68719476736
      ∧ adjustedPct (8 / 100) (11 / 10) 1 (105 / 100) = 924 / 10000
      ∧ percentageFee 1000000 (8 / 100) (11 / 10) 1 (105 / 100) = 92400 := by
  have h1 : adjustedPctFP = ⟨6658121689104542, -56⟩ := by decide
  have h2 : percentageFeeFP = ⟨6349679650406401, -36⟩ := by decide
  refine ⟨h1, h2, by decide, ?_, ?_, ?_, ?_⟩
  · rw [h1]; norm_num [FP.toRat, show Int.toNat 56 = 56 from rfl]
  · rw [h2]; norm_num [FP.toRat, show Int.toNat 36 = 36 from rfl]
  · norm_num [adjustedPct]
  · norm_num [percentageFee, adjustedPct]

end ArchFee
